import Mathlib

/-!
Verification of the banking event-dispatch core (task_2 of the repository:
`event_manager.py`, `producer.py`, `consumer_pull.py`, `consumer_push.py`).

The Python classes are shallowly embedded as pure Lean functions over explicit
state records.  Machine-level aspects that no claim depends on (float-valued
`amount`/`timestamp` fields, wall-clock time, SQLite itself) are omitted or
modelled by their documented behaviour:

* the thread-safe `queue.Queue` is a FIFO `List Event` (head = next item out);
* a *blocking* `put` on a full queue succeeds only if a concurrent consumer
  frees a slot before the timeout; that environment choice is threaded through
  the state as an explicit oracle list `blockedPutOutcomes` (one entry consumed
  per blocking wait on a full queue; an exhausted oracle means no consumer
  activity, i.e. the wait times out);
* a Python callback is a function together with an identifier; an invocation
  that raises is an `Except.error`; `_safe_call` catches it and produces a log
  entry.  Dispatch functions return a trace of invocations so that delivery
  can be reasoned about;
* the SQLite table of the consumers (`INSERT OR IGNORE` against a table whose
  `event_id` is `INTEGER PRIMARY KEY` and whose `transaction_id` is `UNIQUE`)
  is a `List Event` into which a row is inserted only when neither key
  collides with an existing row.
-/

namespace Banking

/-- Metadata sub-dictionary of a banking event (`metadata` key of the Python
event dict); the consumers read the four keys with `.get`, so each value is
optional. -/
structure EventMetadata where
  country_code : Option String
  channel : Option String
  currency : Option String
  status : Option String
  deriving DecidableEq, Repr

/-- A banking event (the Python event dict produced by
`BankingEventProducer._generate_event`).  The float-valued `amount` and
`timestamp` entries are omitted: no claim under verification mentions them. -/
structure Event where
  event_id : Nat
  event_type : String
  account_id : String
  transaction_id : String
  metadata : EventMetadata
  deriving DecidableEq, Repr

/-- A registered push callback: an identifier plus the behaviour of the Python
callable.  `run` returning `Except.error msg` models the callback raising an
exception with message `msg`. -/
structure Callback (α : Type) where
  id : Nat
  run : α → Except String Unit

/-- Record of one callback invocation performed by a dispatch helper:
which callback was called, with which payload, and the logged error message
if the callback raised (`none` when it completed normally). -/
structure Invocation (α : Type) where
  cbId : Nat
  payload : α
  logged : Option String
  deriving DecidableEq, Repr

/-- `BankingEventManager._safe_call`: call the callback and catch any
exception; a raised exception becomes a returned log message and never
propagates (the function is total). -/
def safe_call {α : Type} (cb : Callback α) (payload : α) : Option String :=
  match cb.run payload with
  | .ok _ => none
  | .error msg => some msg

/-- `BankingEventManager._dispatch_to_callbacks` (synchronous branch, no
executor): call every per-event callback with the event via `_safe_call`,
in registration order.  The result is the trace of invocations. -/
def dispatch_to_callbacks (callbacks : List (Callback Event)) (event : Event) :
    List (Invocation Event) :=
  callbacks.map (fun cb => { cbId := cb.id, payload := event, logged := safe_call cb event })

/-- `BankingEventManager._dispatch_batch_to_callbacks` (synchronous branch):
call every batch callback with the full batch via `_safe_call`. -/
def dispatch_batch_to_callbacks (callbacks : List (Callback (List Event)))
    (events : List Event) : List (Invocation (List Event)) :=
  callbacks.map (fun cb => { cbId := cb.id, payload := events, logged := safe_call cb events })

/-- State of a `BankingEventManager` instance.  `blockedPutOutcomes` is the
environment oracle for blocking puts on a full queue (see the file header). -/
structure ManagerState where
  /-- `maxsize` of the internal `queue.Queue`; `0` means unlimited. -/
  maxQueueSize : Nat
  /-- contents of the internal FIFO queue, head = next element to be dequeued. -/
  events : List Event
  /-- number of puts not yet matched by `task_done` (the queue's unfinished-task
  count, which makes `queue.task_done` raise when it reaches zero). -/
  unfinishedTasks : Nat
  pushEventCallbacks : List (Callback Event)
  pushBatchCallbacks : List (Callback (List Event))
  totalEventsReceived : Int
  totalEventsPushed : Int
  totalEventsQueued : Int
  blockedPutOutcomes : List Bool

/-- Whether the internal queue is full (`queue.Queue` with `maxsize > 0` is
full when its size has reached `maxsize`). -/
def queueFull (st : ManagerState) : Bool :=
  decide (0 < st.maxQueueSize ∧ st.maxQueueSize ≤ st.events.length)

/-- `queue.Queue.put_nowait`: enqueue at the back, or fail if the queue is
full.  Returns (success?, new state). -/
def put_nowait (st : ManagerState) (ev : Event) : Bool × ManagerState :=
  if queueFull st then (false, st)
  else (true, { st with events := st.events ++ [ev],
                        unfinishedTasks := st.unfinishedTasks + 1 })

/-- `queue.Queue.put(block=True, timeout=...)`: if the queue is not full the
event is enqueued immediately.  If it is full, the put waits; whether a
concurrent consumer frees a slot (dequeuing the front element) within the
timeout is decided by the next oracle entry — an exhausted oracle means the
wait times out and `queue.Full` is raised. -/
def put_blocking (st : ManagerState) (ev : Event) : Bool × ManagerState :=
  if queueFull st then
    match st.blockedPutOutcomes with
    | true :: rest =>
        (true, { st with events := st.events.drop 1 ++ [ev],
                         unfinishedTasks := st.unfinishedTasks + 1,
                         blockedPutOutcomes := rest })
    | false :: rest => (false, { st with blockedPutOutcomes := rest })
    | [] => (false, st)
  else (true, { st with events := st.events ++ [ev],
                        unfinishedTasks := st.unfinishedTasks + 1 })

/-- Counter update performed by `add_event` after a successful put. -/
def incReceivedQueued (st : ManagerState) : ManagerState :=
  { st with totalEventsReceived := st.totalEventsReceived + 1,
            totalEventsQueued := st.totalEventsQueued + 1 }

/-- `BankingEventManager.add_event`: try the requested put (blocking or not);
on `queue.Full`, fall back to one blocking put with a one-second timeout.  A
`false` result means `queue.Full` escaped to the caller. -/
def add_event (st : ManagerState) (ev : Event) (block : Bool) : Bool × ManagerState :=
  let first := if block then put_blocking st ev else put_nowait st ev
  if first.1 then (true, incReceivedQueued first.2)
  else
    let second := put_blocking first.2 ev
    if second.1 then (true, incReceivedQueued second.2)
    else (false, second.2)

/-- Trace entry for one `add_event` call made by `add_events_batch`:
the position of the event in the batch, the `block` argument used, and
whether the call succeeded. -/
structure EnqueueCall where
  idx : Nat
  block : Bool
  ok : Bool
  deriving DecidableEq, Repr

/-- Body of `BankingEventManager.add_events_batch`, with `i` the batch
position of the first remaining event.  For each event: call `add_event`
with the caller's `block` flag; on an exception, retry once with
`block=True`; if the retry also raises, the exception propagates and the
remaining events are never attempted.  Returns (success?, final state,
trace of `add_event` calls). -/
def add_events_batch_aux (st : ManagerState) (evs : List Event) (block : Bool)
    (i : Nat) : Bool × ManagerState × List EnqueueCall :=
  match evs with
  | [] => (true, st, [])
  | ev :: rest =>
    let firstTry := add_event st ev block
    if firstTry.1 then
      let r := add_events_batch_aux firstTry.2 rest block (i + 1)
      (r.1, r.2.1, ⟨i, block, true⟩ :: r.2.2)
    else
      let retry := add_event firstTry.2 ev true
      if retry.1 then
        let r := add_events_batch_aux retry.2 rest block (i + 1)
        (r.1, r.2.1, ⟨i, block, false⟩ :: ⟨i, true, true⟩ :: r.2.2)
      else
        (false, retry.2, [⟨i, block, false⟩, ⟨i, true, false⟩])

/-- `BankingEventManager.add_events_batch`. -/
def add_events_batch (st : ManagerState) (evs : List Event) (block : Bool) :
    Bool × ManagerState × List EnqueueCall :=
  add_events_batch_aux st evs block 0

/-- The `add_event` calls of a batch trace that concern batch position `j`. -/
def callsFor (tr : List EnqueueCall) (j : Nat) : List EnqueueCall :=
  tr.filter (fun c => c.idx == j)

/-- `BankingEventManager.get_event`: return the front of the queue, or `none`
when the queue stays empty until the timeout elapses (in this sequential
model an empty queue means the timeout elapses with nothing available). -/
def get_event (st : ManagerState) : Option Event × ManagerState :=
  match st.events with
  | [] => (none, st)
  | e :: rest => (some e, { st with events := rest })

/-- `queue.Queue.get_nowait`, as used by the drain loop of
`get_events_batch`: identical queue effect to a successful `get_event`,
failing immediately on an empty queue. -/
def get_nowait (st : ManagerState) : Option Event × ManagerState :=
  match st.events with
  | [] => (none, st)
  | e :: rest => (some e, { st with events := rest })

/-- The drain loop of `get_events_batch`: up to `n` non-blocking gets,
stopping at the first `queue.Empty`. -/
def drainNowait (st : ManagerState) : Nat → List Event × ManagerState
  | 0 => ([], st)
  | n + 1 =>
    match get_nowait st with
    | (none, st') => ([], st')
    | (some e, st') =>
      let r := drainNowait st' n
      (e :: r.1, r.2)

/-- `BankingEventManager.get_events_batch`: block up to the timeout for a
first event; if one arrives, drain up to `batch_size - 1` further
already-available events without blocking. -/
def get_events_batch (st : ManagerState) (batchSize : Nat) :
    List Event × ManagerState :=
  match get_event st with
  | (none, st') => ([], st')
  | (some first, st') =>
    let r := drainNowait st' (batchSize - 1)
    (first :: r.1, r.2)

/-- One iteration of the `BankingEventManager.task_done` loop:
`queue.task_done()` raises when no unfinished task remains (the exception is
caught and logged); otherwise the unfinished count drops and the queued
counter is decremented only when strictly positive. -/
def task_done_once (st : ManagerState) : ManagerState :=
  if st.unfinishedTasks = 0 then st
  else
    let st1 := { st with unfinishedTasks := st.unfinishedTasks - 1 }
    if 0 < st1.totalEventsQueued then
      { st1 with totalEventsQueued := st1.totalEventsQueued - 1 }
    else st1

/-- `BankingEventManager.task_done(n)`: delegate to `queue.task_done` n
times. -/
def task_done (st : ManagerState) : Nat → ManagerState
  | 0 => st
  | n + 1 => task_done (task_done_once st) n

/-- Result of a push-side entry point: the new manager state plus the traces
of batch-callback and per-event-callback invocations that were performed. -/
structure PushResult where
  state : ManagerState
  batchInvocations : List (Invocation (List Event))
  eventInvocations : List (Invocation Event)

/-- `BankingEventManager.push_event` (synchronous dispatch, no executor):
snapshot both registries; if batch callbacks exist deliver the event to them
as a one-element batch; then deliver to per-event callbacks; finally bump the
received and pushed counters. -/
def push_event (st : ManagerState) (ev : Event) : PushResult :=
  let eventCallbacks := st.pushEventCallbacks
  let batchCallbacks := st.pushBatchCallbacks
  let binv := if batchCallbacks.isEmpty then []
              else dispatch_batch_to_callbacks batchCallbacks [ev]
  let einv := if eventCallbacks.isEmpty then []
              else dispatch_to_callbacks eventCallbacks ev
  { state := { st with totalEventsReceived := st.totalEventsReceived + 1,
                       totalEventsPushed := st.totalEventsPushed + 1 },
    batchInvocations := binv,
    eventInvocations := einv }

/-- `BankingEventManager.push_events_batch` (synchronous dispatch): nothing
happens for an empty batch; otherwise batch callbacks receive the batch
as-is, per-event callbacks receive each event individually, and the received
and pushed counters grow by the batch length. -/
def push_events_batch (st : ManagerState) (events : List Event) : PushResult :=
  if events.isEmpty then { state := st, batchInvocations := [], eventInvocations := [] }
  else
    let batchCallbacks := st.pushBatchCallbacks
    let eventCallbacks := st.pushEventCallbacks
    let binv := if batchCallbacks.isEmpty then []
                else dispatch_batch_to_callbacks batchCallbacks events
    let einv := if eventCallbacks.isEmpty then []
                else (events.map (fun ev => dispatch_to_callbacks eventCallbacks ev)).flatten
    { state := { st with
                   totalEventsReceived := st.totalEventsReceived + events.length,
                   totalEventsPushed := st.totalEventsPushed + events.length },
      batchInvocations := binv,
      eventInvocations := einv }

/-- `BankingEventManager.get_total_received` (lock-protected snapshot read). -/
def get_total_received (st : ManagerState) : Int := st.totalEventsReceived

/-- `BankingEventManager.get_total_pushed`. -/
def get_total_pushed (st : ManagerState) : Int := st.totalEventsPushed

/-- `BankingEventManager.get_total_queued`. -/
def get_total_queued (st : ManagerState) : Int := st.totalEventsQueued

/-- The public manager operations that touch queue or counters, used to
quantify over call sequences. -/
inductive ManagerOp where
  | addEvent (ev : Event) (block : Bool)
  | addEventsBatch (evs : List Event) (block : Bool)
  | getEvent
  | getEventsBatch (batchSize : Nat)
  | taskDone (n : Nat)
  | pushEvent (ev : Event)
  | pushEventsBatch (evs : List Event)

/-- State transition of one public manager operation (outputs projected
away). -/
def applyOp (st : ManagerState) : ManagerOp → ManagerState
  | .addEvent ev block => (add_event st ev block).2
  | .addEventsBatch evs block => (add_events_batch st evs block).2.1
  | .getEvent => (get_event st).2
  | .getEventsBatch b => (get_events_batch st b).2
  | .taskDone n => task_done st n
  | .pushEvent ev => (push_event st ev).state
  | .pushEventsBatch evs => (push_events_batch st evs).state

/-- A freshly constructed `BankingEventManager`: empty queue, no callbacks,
all counters zero.  `oracle` is the environment for blocking puts. -/
def initManager (maxQueueSize : Nat) (oracle : List Bool) : ManagerState :=
  { maxQueueSize := maxQueueSize
    events := []
    unfinishedTasks := 0
    pushEventCallbacks := []
    pushBatchCallbacks := []
    totalEventsReceived := 0
    totalEventsPushed := 0
    totalEventsQueued := 0
    blockedPutOutcomes := oracle }

/-!  The consumers' SQLite sink.  Both consumer classes create the table

  `event_id INTEGER PRIMARY KEY, ..., transaction_id TEXT UNIQUE NOT NULL, ...`

and write with `INSERT OR IGNORE`, so a row of an `executemany` batch is
silently skipped exactly when an already-stored row (including rows stored
earlier in the same batch) has the same `event_id` or the same
`transaction_id`.  The table is modelled as the list of stored events in
insertion order. -/

/-- Whether a stored row blocks insertion of `e` (`event_id` primary-key
collision or `transaction_id` unique-constraint collision). -/
def rowConflict (r e : Event) : Bool :=
  r.event_id == e.event_id || r.transaction_id == e.transaction_id

/-- One row of the `INSERT OR IGNORE ... executemany` statement. -/
def insertOrIgnore (db : List Event) (e : Event) : List Event :=
  if db.any (fun r => rowConflict r e) then db else db ++ [e]

/-- `BankingConsumerPull._bulk_insert` / `BankingConsumerPush._bulk_insert`:
`executemany` of `INSERT OR IGNORE`, one row per event, in batch order (the
early return on an empty batch coincides with folding over `[]`). -/
def bulk_insert (db : List Event) (events : List Event) : List Event :=
  events.foldl insertOrIgnore db

/-- `get_database_stats`: `SELECT COUNT(*)` over the table. -/
def stored_count (db : List Event) : Nat := db.length

/-- Proof device for reasoning about `insertOrIgnore`: insertion keyed on
`transaction_id` alone.  When `event_id` and `transaction_id` identify rows
consistently, `insertOrIgnore` coincides with this function. -/
def insertByTxn (db : List Event) (e : Event) : List Event :=
  if db.any (fun r => r.transaction_id == e.transaction_id) then db else db ++ [e]

/-- State of a `BankingConsumerPush`: the configured `batch_size`, the
accumulation buffer `event_batch`, the processed counter, and — so that
flush behaviour can be reasoned about — the trace of batches handed to
`_bulk_insert` so far. -/
structure PushConsumerState where
  batchSize : Nat
  eventBatch : List Event
  eventsProcessed : Int
  flushes : List (List Event)
  deriving DecidableEq, Repr

/-- `BankingConsumerPush._process_batch`: snapshot the buffer, clear it,
bulk-insert the snapshot (recorded in `flushes`), and add its size to the
processed counter. -/
def process_batch (st : PushConsumerState) : PushConsumerState :=
  { st with eventBatch := [],
            flushes := st.flushes ++ [st.eventBatch],
            eventsProcessed := st.eventsProcessed + st.eventBatch.length }

/-- `BankingConsumerPush.on_event_received`: append the event to the buffer
and flush when the buffer has reached `batch_size`. -/
def on_event_received (st : PushConsumerState) (ev : Event) : PushConsumerState :=
  let st1 := { st with eventBatch := st.eventBatch ++ [ev] }
  if st1.batchSize ≤ st1.eventBatch.length then process_batch st1 else st1

/-- `BankingConsumerPush.finish`: flush the remaining partial buffer, if
any. -/
def finish (st : PushConsumerState) : PushConsumerState :=
  if st.eventBatch.isEmpty then st else process_batch st

/-- Deliver a list of events to the consumer's callback one at a time (the
PUSH dispatcher calls `on_event_received` once per pushed event). -/
def runEvents (st : PushConsumerState) (evs : List Event) : PushConsumerState :=
  evs.foldl on_event_received st

/-- A freshly constructed `BankingConsumerPush`. -/
def initPushConsumer (batchSize : Nat) : PushConsumerState :=
  { batchSize := batchSize, eventBatch := [], eventsProcessed := 0, flushes := [] }

/-!  The producer (`BankingEventProducer`). -/

/-- Decimal digit characters `'0'`–`'9'`. -/
def digitChar (d : Nat) : Char := Char.ofNat (48 + d)

/-- Decimal digit string of a natural number, most significant first
(the digits printed by Python's `d` format). -/
def decDigits (n : Nat) : List Char :=
  if _h : n < 10 then [digitChar n]
  else decDigits (n / 10) ++ [digitChar (n % 10)]
decreasing_by
  exact Nat.div_lt_self (by omega) (by omega)

/-- Left-pad with `'0'` to width `w` (Python's `{:0wd}` padding; numbers
already wider than `w` are printed in full). -/
def zeroPad (w : Nat) (ds : List Char) : List Char :=
  List.replicate (w - ds.length) '0' ++ ds

/-- Proof device: read a digit string back as a number (accumulator form).
Used to show that zero-padded decimal rendering is injective. -/
def decodeAux (acc : Nat) : List Char → Nat
  | [] => acc
  | c :: cs => decodeAux (acc * 10 + (c.toNat - 48)) cs

/-- Proof device: numeric value of a digit string. -/
def decodeDigits (cs : List Char) : Nat := decodeAux 0 cs

/-- The f-string `f"TXN{event_id:010d}"` of `_generate_event`. -/
def formatTransactionId (event_id : Nat) : String :=
  String.mk ('T' :: 'X' :: 'N' :: zeroPad 10 (decDigits event_id))

/-- The values drawn from the producer's random source for one event
(`random.choice` over the class-level pools); `_generate_event` is
deterministic given these. -/
structure RandomChoices where
  event_type : String
  account_id : String
  country_code : String
  channel : String
  currency : String
  status : String
  deriving DecidableEq, Repr

/-- `BankingEventProducer._generate_event` (float-valued `amount` and
`timestamp` omitted, see the header): the `transaction_id` is
`f"TXN{event_id:010d}"`, every other field comes from the random source. -/
def generate_event (event_id : Nat) (rc : RandomChoices) : Event :=
  { event_id := event_id
    event_type := rc.event_type
    account_id := rc.account_id
    transaction_id := formatTransactionId event_id
    metadata := { country_code := some rc.country_code
                  channel := some rc.channel
                  currency := some rc.currency
                  status := some rc.status } }

/-- State of a `BankingEventProducer` (its produced counter). -/
structure ProducerState where
  eventsProduced : Int
  deriving DecidableEq, Repr

/-- `BankingEventProducer._send_batch`: hand the batch to the manager
(`push_events_batch` in push mode, `add_events_batch` otherwise) and add the
batch length to the produced counter. -/
def send_batch (mst : ManagerState) (pst : ProducerState) (batch : List Event)
    (pushMode : Bool) : ManagerState × ProducerState :=
  (if pushMode then (push_events_batch mst batch).state
   else (add_events_batch mst batch false).2.1,
   { pst with eventsProduced := pst.eventsProduced + batch.length })

/-!  Concrete fixtures used by witnesses and counterexamples. -/

/-- A sample event with a given id and transaction id. -/
def mkEvent (eid : Nat) (txn : String) : Event :=
  { event_id := eid
    event_type := "TRANSACTION"
    account_id := "ACC000001"
    transaction_id := txn
    metadata := { country_code := some "US", channel := some "ATM",
                  currency := some "USD", status := some "PENDING" } }

/-- A per-event callback that completes normally. -/
def okEventCallback (id : Nat) : Callback Event :=
  { id := id, run := fun _ => .ok () }

/-- A per-event callback that always raises. -/
def boomEventCallback (id : Nat) : Callback Event :=
  { id := id, run := fun _ => .error "boom" }

/-- A batch callback that completes normally. -/
def okBatchCallback (id : Nat) : Callback (List Event) :=
  { id := id, run := fun _ => .ok () }

/-- A batch callback that always raises. -/
def boomBatchCallback (id : Nat) : Callback (List Event) :=
  { id := id, run := fun _ => .error "batch boom" }

/-!  ## Dispatch lemmas and the delivery claims (C1, C3, C9)  -/

theorem dispatch_to_callbacks_pairs (callbacks : List (Callback Event)) (ev : Event) :
    (dispatch_to_callbacks callbacks ev).map (fun i => (i.cbId, i.payload)) =
      callbacks.map (fun cb => (cb.id, ev)) := by
  simp [dispatch_to_callbacks, List.map_map, Function.comp_def]

theorem dispatch_batch_to_callbacks_pairs (callbacks : List (Callback (List Event)))
    (events : List Event) :
    (dispatch_batch_to_callbacks callbacks events).map (fun i => (i.cbId, i.payload)) =
      callbacks.map (fun cb => (cb.id, events)) := by
  simp [dispatch_batch_to_callbacks, List.map_map, Function.comp_def]

/-- C1 (amended to non-empty batches): for every state of the callback
registries and every non-empty list of events, `push_events_batch` delivers
the whole list unchanged to each registered batch callback exactly once, and
additionally delivers each event of the list individually to each registered
per-event callback; when no batch callbacks are registered, no batch
delivery happens, so the per-event callbacks are the only delivery path. -/
theorem push_events_batch_delivery (st : ManagerState) (evs : List Event)
    (h : evs ≠ []) :
    (push_events_batch st evs).batchInvocations.map (fun i => (i.cbId, i.payload)) =
      st.pushBatchCallbacks.map (fun cb => (cb.id, evs)) ∧
    (push_events_batch st evs).eventInvocations.map (fun i => (i.cbId, i.payload)) =
      (evs.map (fun ev => st.pushEventCallbacks.map (fun cb => (cb.id, ev)))).flatten ∧
    (st.pushBatchCallbacks = [] → (push_events_batch st evs).batchInvocations = []) := by
  have hne : evs.isEmpty = false := by
    cases evs with
    | nil => exact absurd rfl h
    | cons a l => rfl
  refine ⟨?_, ?_, ?_⟩
  · simp only [push_events_batch, hne]
    by_cases hb : st.pushBatchCallbacks.isEmpty
    · have : st.pushBatchCallbacks = [] := by
        cases hbc : st.pushBatchCallbacks with
        | nil => rfl
        | cons a l => rw [hbc] at hb; exact absurd hb (by simp)
      simp [hb, this]
    · simp only [Bool.not_eq_true] at hb
      simp [hb, dispatch_batch_to_callbacks_pairs]
  · simp only [push_events_batch, hne]
    by_cases he : st.pushEventCallbacks.isEmpty
    · have hnil : st.pushEventCallbacks = [] := by
        cases hec : st.pushEventCallbacks with
        | nil => rfl
        | cons a l => rw [hec] at he; exact absurd he (by simp)
      simp [he, hnil]
    · simp only [Bool.not_eq_true] at he
      simp only [he, Bool.false_eq_true, if_false]
      rw [List.map_flatten, List.map_map]
      exact congrArg List.flatten
        (List.map_congr_left (fun ev _ => dispatch_to_callbacks_pairs st.pushEventCallbacks ev))
  · intro hb
    simp [push_events_batch, hne, hb]

/-- C1 witness: a two-event batch, one batch callback and one per-event
callback registered. -/
theorem push_events_batch_delivery_witness :
    (mkEvent 0 "A" :: [mkEvent 1 "B"]) ≠ [] ∧
    ((push_events_batch
        { initManager 0 [] with
            pushBatchCallbacks := [okBatchCallback 7],
            pushEventCallbacks := [okEventCallback 3] }
        [mkEvent 0 "A", mkEvent 1 "B"]).batchInvocations.map
          (fun i => (i.cbId, i.payload)) =
      [(7, [mkEvent 0 "A", mkEvent 1 "B"])] ∧
     (push_events_batch
        { initManager 0 [] with
            pushBatchCallbacks := [okBatchCallback 7],
            pushEventCallbacks := [okEventCallback 3] }
        [mkEvent 0 "A", mkEvent 1 "B"]).eventInvocations.map
          (fun i => (i.cbId, i.payload)) =
      [(3, mkEvent 0 "A"), (3, mkEvent 1 "B")]) := by
  refine ⟨by simp, ?_, ?_⟩
  · have hmain := push_events_batch_delivery
      { initManager 0 [] with
          pushBatchCallbacks := [okBatchCallback 7],
          pushEventCallbacks := [okEventCallback 3] }
      [mkEvent 0 "A", mkEvent 1 "B"] (by simp)
    rw [hmain.1]; rfl
  · have hmain := push_events_batch_delivery
      { initManager 0 [] with
          pushBatchCallbacks := [okBatchCallback 7],
          pushEventCallbacks := [okEventCallback 3] }
      [mkEvent 0 "A", mkEvent 1 "B"] (by simp)
    rw [hmain.2.1]; rfl

/-- C1 counterexample: with one batch callback registered and the empty list
of events, `push_events_batch` returns before dispatching, so the registered
batch callback does not receive the (empty) batch exactly once — it is not
invoked at all. -/
theorem push_events_batch_empty_cex :
    ¬ ((push_events_batch
          { initManager 0 [] with pushBatchCallbacks := [okBatchCallback 7] }
          []).batchInvocations.map (fun i => (i.cbId, i.payload)) =
        ({ initManager 0 [] with
             pushBatchCallbacks := [okBatchCallback 7] } : ManagerState).pushBatchCallbacks.map
          (fun cb => (cb.id, ([] : List Event)))) := by
  intro hcontra
  simp [push_events_batch] at hcontra

/-- C9: pushing an event while both callback registries are empty performs no
callback invocation at all, yet still increments the received and pushed
counters by exactly one (and `push_event` is a total function — no error). -/
theorem push_event_no_callbacks (st : ManagerState) (ev : Event)
    (he : st.pushEventCallbacks = []) (hb : st.pushBatchCallbacks = []) :
    (push_event st ev).eventInvocations = [] ∧
    (push_event st ev).batchInvocations = [] ∧
    (push_event st ev).state.totalEventsReceived = st.totalEventsReceived + 1 ∧
    (push_event st ev).state.totalEventsPushed = st.totalEventsPushed + 1 := by
  refine ⟨?_, ?_, rfl, rfl⟩ <;> simp [push_event, he, hb]

/-- C9 witness: a fresh manager (both registries empty). -/
theorem push_event_no_callbacks_witness :
    (push_event (initManager 0 []) (mkEvent 0 "A")).eventInvocations = [] ∧
    (push_event (initManager 0 []) (mkEvent 0 "A")).batchInvocations = [] ∧
    (push_event (initManager 0 []) (mkEvent 0 "A")).state.totalEventsReceived =
      (initManager 0 []).totalEventsReceived + 1 ∧
    (push_event (initManager 0 []) (mkEvent 0 "A")).state.totalEventsPushed =
      (initManager 0 []).totalEventsPushed + 1 :=
  push_event_no_callbacks (initManager 0 []) (mkEvent 0 "A") rfl rfl

/-- C3: a callback that raises is caught and logged by the dispatcher and
never aborts its siblings or the pushing caller.  For `push_event`: a raising
per-event callback produces a logged invocation, every registered per-event
callback is still invoked with the same event, and the counter updates after
dispatch still happen.  For `push_events_batch`: a raising batch callback is
likewise logged, every batch callback still receives the same batch, and the
per-event callbacks still receive every event of the batch. -/
theorem push_callback_failure_isolated (st : ManagerState) (ev : Event)
    (cb : Callback Event) (hmem : cb ∈ st.pushEventCallbacks) (msg : String)
    (hraise : cb.run ev = .error msg) :
    ({ cbId := cb.id, payload := ev, logged := some msg } : Invocation Event) ∈
      (push_event st ev).eventInvocations ∧
    (push_event st ev).eventInvocations.map (fun i => (i.cbId, i.payload)) =
      st.pushEventCallbacks.map (fun c => (c.id, ev)) ∧
    (push_event st ev).state.totalEventsReceived = st.totalEventsReceived + 1 ∧
    (push_event st ev).state.totalEventsPushed = st.totalEventsPushed + 1 ∧
    (∀ evs : List Event, evs ≠ [] →
      ∀ bcb ∈ st.pushBatchCallbacks, ∀ m2 : String, bcb.run evs = .error m2 →
        ({ cbId := bcb.id, payload := evs, logged := some m2 } :
            Invocation (List Event)) ∈ (push_events_batch st evs).batchInvocations ∧
        (push_events_batch st evs).batchInvocations.map (fun i => (i.cbId, i.payload)) =
          st.pushBatchCallbacks.map (fun c => (c.id, evs)) ∧
        (push_events_batch st evs).eventInvocations.map (fun i => (i.cbId, i.payload)) =
          (evs.map (fun e => st.pushEventCallbacks.map (fun c => (c.id, e)))).flatten) := by
  have hne : st.pushEventCallbacks.isEmpty = false := by
    cases hec : st.pushEventCallbacks with
    | nil => rw [hec] at hmem; cases hmem
    | cons a l => rfl
  refine ⟨?_, ?_, rfl, rfl, ?_⟩
  · simp only [push_event, hne, Bool.false_eq_true, if_false]
    simp only [dispatch_to_callbacks, List.mem_map]
    exact ⟨cb, hmem, by simp [safe_call, hraise]⟩
  · simp only [push_event, hne, Bool.false_eq_true, if_false]
    exact dispatch_to_callbacks_pairs st.pushEventCallbacks ev
  · intro evs hevs bcb hbcb m2 hb2
    have hneb : evs.isEmpty = false := by
      cases evs with
      | nil => exact absurd rfl hevs
      | cons a l => rfl
    have hnebc : st.pushBatchCallbacks.isEmpty = false := by
      cases hbc : st.pushBatchCallbacks with
      | nil => rw [hbc] at hbcb; cases hbcb
      | cons a l => rfl
    refine ⟨?_, ?_, ?_⟩
    · simp only [push_events_batch, hneb, hnebc, Bool.false_eq_true, if_false]
      simp only [dispatch_batch_to_callbacks, List.mem_map]
      exact ⟨bcb, hbcb, by simp [safe_call, hb2]⟩
    · exact (push_events_batch_delivery st evs hevs).1
    · exact (push_events_batch_delivery st evs hevs).2.1

/-- C3 witness: two per-event callbacks, the first raising; one raising batch
callback; a one-event batch. -/
theorem push_callback_failure_isolated_witness :
    boomEventCallback 1 ∈
      ({ initManager 0 [] with
           pushEventCallbacks := [boomEventCallback 1, okEventCallback 2],
           pushBatchCallbacks := [boomBatchCallback 9] } : ManagerState).pushEventCallbacks ∧
    (boomEventCallback 1).run (mkEvent 0 "A") = .error "boom" ∧
    ({ cbId := 1, payload := mkEvent 0 "A", logged := some "boom" } : Invocation Event) ∈
      (push_event
        { initManager 0 [] with
            pushEventCallbacks := [boomEventCallback 1, okEventCallback 2],
            pushBatchCallbacks := [boomBatchCallback 9] }
        (mkEvent 0 "A")).eventInvocations ∧
    (push_event
        { initManager 0 [] with
            pushEventCallbacks := [boomEventCallback 1, okEventCallback 2],
            pushBatchCallbacks := [boomBatchCallback 9] }
        (mkEvent 0 "A")).eventInvocations.map (fun i => (i.cbId, i.payload)) =
      [(1, mkEvent 0 "A"), (2, mkEvent 0 "A")] := by
  have hmain := push_callback_failure_isolated
    { initManager 0 [] with
        pushEventCallbacks := [boomEventCallback 1, okEventCallback 2],
        pushBatchCallbacks := [boomBatchCallback 9] }
    (mkEvent 0 "A") (boomEventCallback 1) (by simp) "boom" rfl
  exact ⟨by simp, rfl, hmain.1, by rw [hmain.2.1]; rfl⟩

/-!  ## PULL batch dequeue (C2)  -/

theorem drainNowait_spec (n : Nat) : ∀ st : ManagerState,
    (drainNowait st n).1 = st.events.take n ∧
    (drainNowait st n).2.events = st.events.drop n ∧
    (drainNowait st n).2.maxQueueSize = st.maxQueueSize ∧
    (drainNowait st n).2.unfinishedTasks = st.unfinishedTasks ∧
    (drainNowait st n).2.pushEventCallbacks = st.pushEventCallbacks ∧
    (drainNowait st n).2.pushBatchCallbacks = st.pushBatchCallbacks ∧
    (drainNowait st n).2.totalEventsReceived = st.totalEventsReceived ∧
    (drainNowait st n).2.totalEventsPushed = st.totalEventsPushed ∧
    (drainNowait st n).2.totalEventsQueued = st.totalEventsQueued ∧
    (drainNowait st n).2.blockedPutOutcomes = st.blockedPutOutcomes := by
  induction n with
  | zero => intro st; simp [drainNowait]
  | succ n ih =>
    intro st
    cases hst : st.events with
    | nil =>
      have hg : get_nowait st = (none, st) := by
        unfold get_nowait; rw [hst]
      simp [drainNowait, hg, hst]
    | cons e rest =>
      have hg : get_nowait st = (some e, { st with events := rest }) := by
        unfold get_nowait; rw [hst]
      have ihr := ih { st with events := rest }
      simp only [drainNowait, hg, hst]
      simp only at ihr
      simp [ihr.1, ihr.2.1, ihr.2.2.1, ihr.2.2.2.1, ihr.2.2.2.2.1, ihr.2.2.2.2.2.1,
        ihr.2.2.2.2.2.2.1, ihr.2.2.2.2.2.2.2.1, ihr.2.2.2.2.2.2.2.2]

/-- C2 (amended to `batch_size ≥ 1`): `get_events_batch` returns the empty
list exactly when no event is available before the timeout (empty queue in
this sequential model); otherwise it returns a non-empty prefix of the queue
of at most `batch_size` events — the first awaited event followed by the
already-available ones, in FIFO order — leaving the rest of the queue
untouched, without waiting for a full batch. -/
theorem get_events_batch_spec (st : ManagerState) (batchSize : Nat)
    (hb : 1 ≤ batchSize) :
    (st.events = [] → (get_events_batch st batchSize).1 = []) ∧
    (st.events ≠ [] → (get_events_batch st batchSize).1 ≠ []) ∧
    (get_events_batch st batchSize).1.length ≤ batchSize ∧
    (get_events_batch st batchSize).1 = st.events.take batchSize ∧
    (get_events_batch st batchSize).2.events = st.events.drop batchSize := by
  obtain ⟨b, rfl⟩ : ∃ b, batchSize = b + 1 := ⟨batchSize - 1, by omega⟩
  cases hst : st.events with
  | nil =>
    have hg : get_event st = (none, st) := by
      unfold get_event; rw [hst]
    refine ⟨fun _ => ?_, fun hc => absurd rfl hc, ?_, ?_, ?_⟩ <;>
      simp [get_events_batch, hg, hst]
  | cons e rest =>
    have hg : get_event st = (some e, { st with events := rest }) := by
      unfold get_event; rw [hst]
    have hd := drainNowait_spec (b + 1 - 1) { st with events := rest }
    simp only at hd
    refine ⟨fun hc => absurd hc (by simp), fun _ => ?_, ?_, ?_, ?_⟩
    · simp [get_events_batch, hg]
    · simp only [get_events_batch, hg, hd.1]
      simp only [List.length_cons, List.length_take]
      omega
    · simp only [get_events_batch, hg, hd.1, hst]
      simp
    · simp only [get_events_batch, hg, hd.2.1, hst]
      simp

/-- C2 witness: three queued events, `batch_size = 2`. -/
theorem get_events_batch_spec_witness :
    1 ≤ 2 ∧
    (({ initManager 0 [] with
          events := [mkEvent 0 "A", mkEvent 1 "B", mkEvent 2 "C"] } :
        ManagerState).events ≠ [] →
      (get_events_batch
        { initManager 0 [] with
            events := [mkEvent 0 "A", mkEvent 1 "B", mkEvent 2 "C"] } 2).1 ≠ []) ∧
    (get_events_batch
        { initManager 0 [] with
            events := [mkEvent 0 "A", mkEvent 1 "B", mkEvent 2 "C"] } 2).1.length ≤ 2 ∧
    (get_events_batch
        { initManager 0 [] with
            events := [mkEvent 0 "A", mkEvent 1 "B", mkEvent 2 "C"] } 2).1 =
      ({ initManager 0 [] with
           events := [mkEvent 0 "A", mkEvent 1 "B", mkEvent 2 "C"] } :
         ManagerState).events.take 2 := by
  have hmain := get_events_batch_spec
    { initManager 0 [] with events := [mkEvent 0 "A", mkEvent 1 "B", mkEvent 2 "C"] }
    2 (by omega)
  exact ⟨by omega, hmain.2.1, hmain.2.2.1, hmain.2.2.2.1⟩

/-- C2 counterexample: with `batch_size = 0` and one available event, the
code still returns that first event (the drain loop runs zero times but the
awaited first event is always kept), so the result has more than
`batch_size` events, contradicting the claim's bound for every
`batch_size`. -/
theorem get_events_batch_zero_cex :
    ¬ ((get_events_batch
          { initManager 0 [] with events := [mkEvent 0 "A"] } 0).1.length ≤ 0) := by
  intro hcontra
  simp [get_events_batch, get_event, drainNowait] at hcontra

/-!  ## PushConsumer flush behaviour (C5)  -/

theorem runEvents_cons (st : PushConsumerState) (e : Event) (evs : List Event) :
    runEvents st (e :: evs) = runEvents (on_event_received st e) evs := rfl

/-- Invariant of the accumulate-and-flush loop: starting from a buffer below
the threshold, after feeding `evs` the flush count, the buffer size, the
flushed batch sizes and the overall content conservation are determined by
euclidean division of the processed total by `batch_size`. -/
theorem runEvents_inv (evs : List Event) : ∀ st : PushConsumerState,
    st.eventBatch.length < st.batchSize →
    (runEvents st evs).batchSize = st.batchSize ∧
    (runEvents st evs).flushes.length =
      st.flushes.length + (st.eventBatch.length + evs.length) / st.batchSize ∧
    (runEvents st evs).eventBatch.length =
      (st.eventBatch.length + evs.length) % st.batchSize ∧
    (∀ fl ∈ (runEvents st evs).flushes, fl ∈ st.flushes ∨ fl.length = st.batchSize) ∧
    (runEvents st evs).flushes.flatten ++ (runEvents st evs).eventBatch =
      st.flushes.flatten ++ st.eventBatch ++ evs := by
  induction evs with
  | nil =>
    intro st h
    refine ⟨rfl, ?_, ?_, fun fl hfl => Or.inl hfl, by simp [runEvents]⟩
    · simp [runEvents, Nat.div_eq_of_lt h]
    · simp [runEvents, Nat.mod_eq_of_lt h]
  | cons e rest ih =>
    intro st h
    have h2 : 0 < st.batchSize := by omega
    rw [runEvents_cons]
    by_cases hth : st.batchSize ≤ st.eventBatch.length + 1
    · have hth' : st.batchSize ≤ (st.eventBatch ++ [e]).length := by
        simp only [List.length_append, List.length_cons, List.length_nil]
        omega
      have hoe : on_event_received st e =
          process_batch { st with eventBatch := st.eventBatch ++ [e] } := by
        simp [on_event_received, hth']
        intro hcon
        exact absurd hth (by omega)
      rw [hoe]
      have hlt2 : (process_batch { st with eventBatch := st.eventBatch ++ [e] }).eventBatch.length <
          (process_batch { st with eventBatch := st.eventBatch ++ [e] }).batchSize := by
        simp [process_batch]
        omega
      have ih2 := ih _ hlt2
      simp only [process_batch, List.length_append, List.length_cons, List.length_nil,
        List.length_append, zero_add, Nat.zero_add] at ih2 ⊢
      have harg : st.eventBatch.length + (rest.length + 1) =
          rest.length + st.batchSize := by omega
      refine ⟨ih2.1, ?_, ?_, ?_, ?_⟩
      · rw [ih2.2.1, harg, Nat.add_div_right _ h2]
        omega
      · rw [ih2.2.2.1, harg, Nat.add_mod_right]
      · intro fl hfl
        rcases ih2.2.2.2.1 fl hfl with hin | hlen
        · rcases List.mem_append.mp hin with hin' | hin'
          · exact Or.inl hin'
          · refine Or.inr ?_
            have hfe : fl = st.eventBatch ++ [e] := by simpa using hin'
            subst hfe
            simp only [List.length_append, List.length_cons, List.length_nil]
            omega
        · exact Or.inr hlen
      · rw [ih2.2.2.2.2]
        simp [List.append_assoc]
    · have hth' : ¬ st.batchSize ≤ (st.eventBatch ++ [e]).length := by
        simp only [List.length_append, List.length_cons, List.length_nil]
        omega
      have hoe : on_event_received st e = { st with eventBatch := st.eventBatch ++ [e] } := by
        simp [on_event_received, hth']
        intro hcon
        exact absurd hcon hth
      rw [hoe]
      have hlt2 : ({ st with eventBatch := st.eventBatch ++ [e] } :
          PushConsumerState).eventBatch.length <
          ({ st with eventBatch := st.eventBatch ++ [e] } : PushConsumerState).batchSize := by
        simp
        omega
      have ih2 := ih _ hlt2
      simp only [List.length_append, List.length_cons, List.length_nil] at ih2 ⊢
      have harg : st.eventBatch.length + (rest.length + 1) =
          (st.eventBatch.length + 1) + rest.length := by omega
      refine ⟨ih2.1, ?_, ?_, ?_, ?_⟩
      · rw [ih2.2.1, harg]
      · rw [ih2.2.2.1, harg]
      · intro fl hfl
        rcases ih2.2.2.2.1 fl hfl with hin | hlen
        · exact Or.inl (by simpa using hin)
        · exact Or.inr hlen
      · rw [ih2.2.2.2.2]
        simp [List.append_assoc]

/-- C5 (amended to `batch_size ≥ 1`): feeding `b * k + r` events
(`0 ≤ r < b`) one at a time produces exactly `k` flushes each of exactly `b`
events; when `r = 0`, `finish` performs no extra flush; when `0 < r`,
`finish` performs exactly one extra flush consisting of the remaining `r`
events (the last `r` fed). -/
theorem push_consumer_flush_thresholds (b k r : Nat) (evs : List Event)
    (hb : 1 ≤ b) (hlen : evs.length = b * k + r) (hr : r < b) :
    (runEvents (initPushConsumer b) evs).flushes.length = k ∧
    (∀ fl ∈ (runEvents (initPushConsumer b) evs).flushes, fl.length = b) ∧
    (r = 0 → finish (runEvents (initPushConsumer b) evs) =
      runEvents (initPushConsumer b) evs) ∧
    (0 < r → (finish (runEvents (initPushConsumer b) evs)).flushes =
        (runEvents (initPushConsumer b) evs).flushes ++ [evs.drop (b * k)] ∧
      (evs.drop (b * k)).length = r) := by
  have hinv := runEvents_inv evs (initPushConsumer b) (by simp [initPushConsumer]; omega)
  simp only [initPushConsumer] at hinv
  have hdiv : evs.length / b = k := by
    rw [hlen, Nat.mul_add_div (by omega)]
    simp [Nat.div_eq_of_lt hr]
  have hmod : evs.length % b = r := by
    rw [hlen, Nat.mul_add_mod]
    exact Nat.mod_eq_of_lt hr
  have hflen : (runEvents ⟨b, [], 0, []⟩ evs).flushes.length = k := by
    have hx := hinv.2.1
    simpa [hdiv] using hx
  have hbatchlen : (runEvents ⟨b, [], 0, []⟩ evs).eventBatch.length = r := by
    have hx := hinv.2.2.1
    simpa [hmod] using hx
  have hsizes : ∀ fl ∈ (runEvents ⟨b, [], 0, []⟩ evs).flushes, fl.length = b := by
    intro fl hfl
    rcases hinv.2.2.2.1 fl hfl with hin | hlen'
    · simp at hin
    · exact hlen'
  have hjoin : (runEvents ⟨b, [], 0, []⟩ evs).flushes.flatten ++
      (runEvents ⟨b, [], 0, []⟩ evs).eventBatch = evs := by
    have hx := hinv.2.2.2.2
    simpa using hx
  have hjoinlen : (runEvents ⟨b, [], 0, []⟩ evs).flushes.flatten.length = b * k := by
    rw [List.length_flatten]
    have hrep : (runEvents ⟨b, [], 0, []⟩ evs).flushes.map List.length =
        List.replicate k b := by
      rw [List.eq_replicate_iff]
      refine ⟨by simpa using hflen, ?_⟩
      intro x hx
      rcases List.mem_map.mp hx with ⟨fl, hfl, hxe⟩
      rw [← hxe]
      exact hsizes fl hfl
    rw [hrep, List.sum_replicate, smul_eq_mul]
    exact Nat.mul_comm k b
  have hrem : (runEvents ⟨b, [], 0, []⟩ evs).eventBatch = evs.drop (b * k) := by
    have hdl := List.drop_left (runEvents ⟨b, [], 0, []⟩ evs).flushes.flatten
      (runEvents ⟨b, [], 0, []⟩ evs).eventBatch
    rw [hjoin, hjoinlen] at hdl
    exact hdl.symm
  refine ⟨by simpa using hflen, by simpa using hsizes, ?_, ?_⟩
  · intro hr0
    have hbe : (runEvents (initPushConsumer b) evs).eventBatch = [] := by
      have : (runEvents (initPushConsumer b) evs).eventBatch.length = 0 := by
        simpa [initPushConsumer, hr0] using hbatchlen
      exact List.length_eq_zero.mp this
    simp [finish, hbe]
  · intro hrpos
    have hbe : (runEvents (initPushConsumer b) evs).eventBatch ≠ [] := by
      intro hc
      have : (runEvents (initPushConsumer b) evs).eventBatch.length = r := by
        simpa [initPushConsumer] using hbatchlen
      rw [hc] at this
      simp at this
      omega
    have hbee : (runEvents (initPushConsumer b) evs).eventBatch.isEmpty = false := by
      cases hce : (runEvents (initPushConsumer b) evs).eventBatch with
      | nil => exact absurd hce hbe
      | cons a l => rfl
    constructor
    · simp only [finish, hbee, Bool.false_eq_true, if_false, process_batch]
      rw [show (runEvents (initPushConsumer b) evs).eventBatch = evs.drop (b * k) from
        by simpa [initPushConsumer] using hrem]
    · have : (runEvents (initPushConsumer b) evs).eventBatch.length = r := by
        simpa [initPushConsumer] using hbatchlen
      rw [← show (runEvents (initPushConsumer b) evs).eventBatch = evs.drop (b * k) from
        by simpa [initPushConsumer] using hrem]
      exact this

/-- C5 witness: `batch_size = 2`, three events (`k = 1`, `r = 1`). -/
theorem push_consumer_flush_thresholds_witness :
    1 ≤ 2 ∧
    (runEvents (initPushConsumer 2)
      [mkEvent 0 "A", mkEvent 1 "B", mkEvent 2 "C"]).flushes.length = 1 ∧
    (0 < 1 → (finish (runEvents (initPushConsumer 2)
        [mkEvent 0 "A", mkEvent 1 "B", mkEvent 2 "C"])).flushes =
      (runEvents (initPushConsumer 2)
        [mkEvent 0 "A", mkEvent 1 "B", mkEvent 2 "C"]).flushes ++
        [[mkEvent 0 "A", mkEvent 1 "B", mkEvent 2 "C"].drop (2 * 1)] ∧
      ([mkEvent 0 "A", mkEvent 1 "B", mkEvent 2 "C"].drop (2 * 1)).length = 1) := by
  have hmain := push_consumer_flush_thresholds 2 1 1
    [mkEvent 0 "A", mkEvent 1 "B", mkEvent 2 "C"] (by omega) (by simp) (by omega)
  exact ⟨by omega, hmain.1, hmain.2.2.2⟩

/-- C5 counterexample: with `batch_size = 0` and `k = 1`, delivering
`batch_size * k = 0` events produces zero flush calls, not the `k = 1`
flushes of size `batch_size` the claim demands for every configured
`batch_size`. -/
theorem push_consumer_flush_zero_cex :
    (finish (runEvents (initPushConsumer 0) ([] : List Event))).flushes.length = 0 ∧
    ¬ ((finish (runEvents (initPushConsumer 0) ([] : List Event))).flushes.length = 1) := by
  constructor
  · rfl
  · intro hcontra
    simp [finish, runEvents, initPushConsumer] at hcontra

/-!  ## Sink idempotence (C4)  -/

theorem insertOrIgnore_eq_insertByTxn (db : List Event) (e : Event)
    (hdb : ∀ r ∈ db, (r.event_id = e.event_id ↔ r.transaction_id = e.transaction_id)) :
    insertOrIgnore db e = insertByTxn db e := by
  unfold insertOrIgnore insertByTxn
  have hcond : (db.any fun r => rowConflict r e) =
      (db.any fun r => r.transaction_id == e.transaction_id) := by
    by_cases hc : (db.any fun r => r.transaction_id == e.transaction_id) = true
    · rw [hc]
      rw [List.any_eq_true] at hc ⊢
      obtain ⟨r, hr, hrt⟩ := hc
      exact ⟨r, hr, by simp only [rowConflict, Bool.or_eq_true]; exact Or.inr hrt⟩
    · have hc' : (db.any fun r => r.transaction_id == e.transaction_id) = false :=
        Bool.not_eq_true _ |>.mp hc
      rw [hc']
      rw [List.any_eq_false] at hc' ⊢
      intro r hr
      have htxn : ¬ r.transaction_id = e.transaction_id := by
        have := hc' r hr
        simpa using this
      have heid : ¬ r.event_id = e.event_id := fun h => htxn ((hdb r hr).mp h)
      simp [rowConflict, htxn, heid]
  rw [hcond]

theorem foldl_insertOrIgnore_eq_byTxn (l : List Event) : ∀ db : List Event,
    (∀ r ∈ db, ∀ e ∈ l, (r.event_id = e.event_id ↔ r.transaction_id = e.transaction_id)) →
    (∀ e1 ∈ l, ∀ e2 ∈ l, (e1.event_id = e2.event_id ↔ e1.transaction_id = e2.transaction_id)) →
    List.foldl insertOrIgnore db l = List.foldl insertByTxn db l := by
  induction l with
  | nil => intro db _ _; rfl
  | cons e rest ih =>
    intro db hdb hl
    have hstep : insertOrIgnore db e = insertByTxn db e :=
      insertOrIgnore_eq_insertByTxn db e
        (fun r hr => hdb r hr e (List.mem_cons_self e rest))
    rw [List.foldl_cons, List.foldl_cons, hstep]
    refine ih (insertByTxn db e) ?_ ?_
    · intro r hr e2 he2
      have hr' : r ∈ db ∨ r = e := by
        unfold insertByTxn at hr
        split at hr
        · exact Or.inl hr
        · rcases List.mem_append.mp hr with h1 | h1
          · exact Or.inl h1
          · exact Or.inr (by simpa using h1)
      rcases hr' with h1 | h1
      · exact hdb r h1 e2 (List.mem_cons_of_mem e he2)
      · subst h1
        exact hl r (List.mem_cons_self r rest) e2 (List.mem_cons_of_mem r he2)
    · intro e1 he1 e2 he2
      exact hl e1 (List.mem_cons_of_mem e he1) e2 (List.mem_cons_of_mem e he2)

theorem foldl_insertByTxn_spec (l : List Event) : ∀ db : List Event,
    ((db.map (fun e => e.transaction_id)).Nodup →
      ((List.foldl insertByTxn db l).map (fun e => e.transaction_id)).Nodup) ∧
    ((List.foldl insertByTxn db l).map (fun e => e.transaction_id)).toFinset =
      (db.map (fun e => e.transaction_id)).toFinset ∪
        (l.map (fun e => e.transaction_id)).toFinset := by
  induction l with
  | nil => intro db; exact ⟨fun h => h, by simp⟩
  | cons e rest ih =>
    intro db
    rw [List.foldl_cons]
    by_cases hc : (db.any fun r => r.transaction_id == e.transaction_id) = true
    · have hskip : insertByTxn db e = db := by unfold insertByTxn; rw [hc]; rfl
      rw [hskip]
      have hmem : e.transaction_id ∈ db.map (fun x => x.transaction_id) := by
        rw [List.any_eq_true] at hc
        obtain ⟨r, hr, hrt⟩ := hc
        have hre : r.transaction_id = e.transaction_id := by simpa using hrt
        exact hre ▸ List.mem_map_of_mem (fun x => x.transaction_id) hr
      refine ⟨(ih db).1, ?_⟩
      rw [(ih db).2]
      ext t
      simp only [Finset.mem_union, List.mem_toFinset, List.map_cons, List.mem_cons]
      constructor
      · intro h; tauto
      · rintro (h | h | h)
        · exact Or.inl h
        · subst h; exact Or.inl hmem
        · exact Or.inr h
    · have hc' : (db.any fun r => r.transaction_id == e.transaction_id) = false :=
        Bool.not_eq_true _ |>.mp hc
      have hins : insertByTxn db e = db ++ [e] := by unfold insertByTxn; rw [hc']; rfl
      rw [hins]
      have hnotin : e.transaction_id ∉ db.map (fun x => x.transaction_id) := by
        rw [List.any_eq_false] at hc'
        intro hmem
        rcases List.mem_map.mp hmem with ⟨r, hr, hrt⟩
        have := hc' r hr
        simp [hrt] at this
      constructor
      · intro hnodup
        refine (ih (db ++ [e])).1 ?_
        rw [List.map_append]
        simp only [List.map_cons, List.map_nil]
        rw [List.nodup_append]
        exact ⟨hnodup, List.nodup_singleton _, by
          intro a ha hb
          simp only [List.mem_singleton] at hb
          subst hb
          exact hnotin ha⟩
      · rw [(ih (db ++ [e])).2]
        ext t
        simp only [Finset.mem_union, List.toFinset_cons, List.map_cons, List.map_append,
          List.toFinset_append, List.map_nil, Finset.mem_insert, List.toFinset_nil]
        constructor
        · intro h; tauto
        · intro h; tauto

/-- C4 (amended: across the two batches, `event_id` must identify events
exactly as `transaction_id` does — which holds for all producer-generated
events): storing one batch and then a second, overlapping batch with
`_bulk_insert` yields a stored row count equal to the number of distinct
`transaction_id` values across both batches. -/
theorem bulk_insert_idempotent_count (b1 b2 : List Event)
    (_hoverlap : ∃ t, t ∈ b1.map (fun e => e.transaction_id) ∧
      t ∈ b2.map (fun e => e.transaction_id))
    (hcons : ∀ e1 ∈ b1 ++ b2, ∀ e2 ∈ b1 ++ b2,
      (e1.event_id = e2.event_id ↔ e1.transaction_id = e2.transaction_id)) :
    stored_count (bulk_insert (bulk_insert [] b1) b2) =
      ((b1 ++ b2).map (fun e => e.transaction_id)).dedup.length := by
  have happ : bulk_insert (bulk_insert [] b1) b2 =
      List.foldl insertOrIgnore [] (b1 ++ b2) := by
    unfold bulk_insert
    rw [List.foldl_append]
  rw [stored_count, happ,
    foldl_insertOrIgnore_eq_byTxn (b1 ++ b2) [] (by simp) hcons]
  have hspec := foldl_insertByTxn_spec (b1 ++ b2) []
  have hnodup := hspec.1 (by simp)
  have hfin := hspec.2
  simp only [List.map_nil, List.toFinset_nil, Finset.empty_union] at hfin
  have hlen : (List.foldl insertByTxn [] (b1 ++ b2)).length =
      ((List.foldl insertByTxn [] (b1 ++ b2)).map (fun e => e.transaction_id)).length := by
    simp
  rw [hlen, ← List.toFinset_card_of_nodup hnodup, hfin]
  exact List.card_toFinset _

/-- C4 witness: batches `[T1]` and `[T1, T2]` overlapping on `T1`, with
consistent `event_id`s; two rows are stored, matching the two distinct
transaction ids. -/
theorem bulk_insert_idempotent_count_witness :
    (∃ t, t ∈ ([mkEvent 1 "T1"].map (fun e => e.transaction_id)) ∧
      t ∈ ([mkEvent 1 "T1", mkEvent 2 "T2"].map (fun e => e.transaction_id))) ∧
    stored_count (bulk_insert (bulk_insert [] [mkEvent 1 "T1"])
        [mkEvent 1 "T1", mkEvent 2 "T2"]) =
      (([mkEvent 1 "T1"] ++ [mkEvent 1 "T1", mkEvent 2 "T2"]).map
        (fun e => e.transaction_id)).dedup.length := by
  refine ⟨⟨"T1", by simp [mkEvent], by simp [mkEvent]⟩, ?_⟩
  exact bulk_insert_idempotent_count [mkEvent 1 "T1"] [mkEvent 1 "T1", mkEvent 2 "T2"]
    ⟨"T1", by simp [mkEvent], by simp [mkEvent]⟩ (by decide)

/-- C4 counterexample: the table also deduplicates on the `event_id` primary
key, so two events with distinct `transaction_id`s but the same `event_id`
are not both stored: batches `[(1,T1)]` and `[(1,T1), (2,T2), (2,T3)]`
overlap on `T1`, have three distinct transaction ids, but only two rows are
stored. -/
theorem bulk_insert_eventid_conflict_cex :
    (∃ t, t ∈ ([mkEvent 1 "T1"].map (fun e => e.transaction_id)) ∧
      t ∈ ([mkEvent 1 "T1", mkEvent 2 "T2", mkEvent 2 "T3"].map
        (fun e => e.transaction_id))) ∧
    ¬ (stored_count (bulk_insert (bulk_insert [] [mkEvent 1 "T1"])
          [mkEvent 1 "T1", mkEvent 2 "T2", mkEvent 2 "T3"]) =
        (([mkEvent 1 "T1"] ++ [mkEvent 1 "T1", mkEvent 2 "T2", mkEvent 2 "T3"]).map
          (fun e => e.transaction_id)).dedup.length) := by
  refine ⟨⟨"T1", by simp [mkEvent], by simp [mkEvent]⟩, by decide⟩

/-!  ## Producer transaction-id uniqueness (C8)  -/

theorem decodeAux_append (xs ys : List Char) : ∀ acc : Nat,
    decodeAux acc (xs ++ ys) = decodeAux (decodeAux acc xs) ys := by
  induction xs with
  | nil => intro acc; rfl
  | cons c cs ih =>
    intro acc
    show decodeAux (acc * 10 + (c.toNat - 48)) (cs ++ ys) =
      decodeAux (decodeAux (acc * 10 + (c.toNat - 48)) cs) ys
    exact ih _

theorem decodeAux_singleton (acc : Nat) (c : Char) :
    decodeAux acc [c] = acc * 10 + (c.toNat - 48) := rfl

set_option maxHeartbeats 1000000 in
theorem digitChar_toNat : ∀ d < 10, (digitChar d).toNat = 48 + d := by decide

theorem decodeDigits_decDigits (n : Nat) : decodeDigits (decDigits n) = n := by
  induction n using Nat.strong_induction_on with
  | _ n ih =>
    by_cases h : n < 10
    · rw [decDigits, dif_pos h]
      show decodeAux 0 [digitChar n] = n
      rw [decodeAux_singleton, digitChar_toNat n h]
      omega
    · rw [decDigits, dif_neg h]
      show decodeAux 0 (decDigits (n / 10) ++ [digitChar (n % 10)]) = n
      rw [decodeAux_append, decodeAux_singleton]
      have ih1 : decodeAux 0 (decDigits (n / 10)) = n / 10 :=
        ih (n / 10) (Nat.div_lt_self (by omega) (by omega))
      rw [ih1, digitChar_toNat (n % 10) (Nat.mod_lt _ (by omega))]
      omega

theorem decodeAux_replicate_zero (k : Nat) :
    decodeAux 0 (List.replicate k '0') = 0 := by
  induction k with
  | zero => rfl
  | succ k ih =>
    show decodeAux (0 * 10 + (('0' : Char).toNat - 48)) (List.replicate k '0') = 0
    have h0 : (0 : Nat) * 10 + (('0' : Char).toNat - 48) = 0 := by decide
    rw [h0, ih]

theorem decodeDigits_zeroPad (w : Nat) (ds : List Char) :
    decodeDigits (zeroPad w ds) = decodeDigits ds := by
  unfold zeroPad decodeDigits
  rw [decodeAux_append, decodeAux_replicate_zero]

theorem formatTransactionId_injective (a b : Nat)
    (h : formatTransactionId a = formatTransactionId b) : a = b := by
  have hl : 'T' :: 'X' :: 'N' :: zeroPad 10 (decDigits a) =
      'T' :: 'X' :: 'N' :: zeroPad 10 (decDigits b) := by
    have hd := congrArg String.data h
    simpa [formatTransactionId] using hd
  have hz : zeroPad 10 (decDigits a) = zeroPad 10 (decDigits b) := by
    simpa using hl
  have hdec : decodeDigits (zeroPad 10 (decDigits a)) =
      decodeDigits (zeroPad 10 (decDigits b)) := by rw [hz]
  rw [decodeDigits_zeroPad, decodeDigits_zeroPad,
    decodeDigits_decDigits, decodeDigits_decDigits] at hdec
  exact hdec

/-- C8: distinct (non-negative) `event_id`s always yield events with
distinct `transaction_id` strings — `f"TXN{event_id:010d}"` is injective —
regardless of everything drawn from the random source. -/
theorem generate_event_transaction_id_unique (a b : Nat)
    (rc1 rc2 : RandomChoices) (h : a ≠ b) :
    (generate_event a rc1).transaction_id ≠ (generate_event b rc2).transaction_id := by
  intro hc
  exact h (formatTransactionId_injective a b (by simpa [generate_event] using hc))

/-- C8 witness: events 0 and 1. -/
theorem generate_event_transaction_id_unique_witness :
    (0 : Nat) ≠ 1 ∧
    (generate_event 0 ⟨"TRANSACTION", "ACC000001", "US", "ATM", "USD", "PENDING"⟩).transaction_id ≠
      (generate_event 1 ⟨"TRANSACTION", "ACC000001", "US", "ATM", "USD", "PENDING"⟩).transaction_id :=
  ⟨by decide,
   generate_event_transaction_id_unique 0 1
     ⟨"TRANSACTION", "ACC000001", "US", "ATM", "USD", "PENDING"⟩
     ⟨"TRANSACTION", "ACC000001", "US", "ATM", "USD", "PENDING"⟩ (by decide)⟩

/-!  ## Counter behaviour (C7, C10)  -/

theorem put_nowait_counters (st : ManagerState) (ev : Event) :
    (put_nowait st ev).2.totalEventsReceived = st.totalEventsReceived ∧
    (put_nowait st ev).2.totalEventsPushed = st.totalEventsPushed ∧
    (put_nowait st ev).2.totalEventsQueued = st.totalEventsQueued := by
  unfold put_nowait
  split <;> simp

theorem put_blocking_counters (st : ManagerState) (ev : Event) :
    (put_blocking st ev).2.totalEventsReceived = st.totalEventsReceived ∧
    (put_blocking st ev).2.totalEventsPushed = st.totalEventsPushed ∧
    (put_blocking st ev).2.totalEventsQueued = st.totalEventsQueued := by
  unfold put_blocking
  split
  · split <;> simp
  · simp

theorem first_put_counters (st : ManagerState) (ev : Event) (block : Bool) :
    ((if block then put_blocking st ev else put_nowait st ev)).2.totalEventsReceived =
      st.totalEventsReceived ∧
    ((if block then put_blocking st ev else put_nowait st ev)).2.totalEventsPushed =
      st.totalEventsPushed ∧
    ((if block then put_blocking st ev else put_nowait st ev)).2.totalEventsQueued =
      st.totalEventsQueued := by
  cases block
  · simpa using put_nowait_counters st ev
  · simpa using put_blocking_counters st ev

theorem add_event_counters (st : ManagerState) (ev : Event) (block : Bool) :
    st.totalEventsReceived ≤ (add_event st ev block).2.totalEventsReceived ∧
    (add_event st ev block).2.totalEventsPushed = st.totalEventsPushed ∧
    st.totalEventsQueued ≤ (add_event st ev block).2.totalEventsQueued := by
  have h1 := first_put_counters st ev block
  rcases hfirst : (if block then put_blocking st ev else put_nowait st ev) with ⟨ok1, st1⟩
  rw [hfirst] at h1
  simp only at h1
  have h2 := put_blocking_counters st1 ev
  rcases hsecond : put_blocking st1 ev with ⟨ok2, st2⟩
  rw [hsecond] at h2
  simp only at h2
  simp only [add_event, hfirst, hsecond]
  cases ok1
  · cases ok2 <;> simp [incReceivedQueued] <;> omega
  · simp [incReceivedQueued]
    omega

theorem add_events_batch_aux_counters (evs : List Event) :
    ∀ (st : ManagerState) (block : Bool) (i : Nat),
    st.totalEventsReceived ≤
      (add_events_batch_aux st evs block i).2.1.totalEventsReceived ∧
    (add_events_batch_aux st evs block i).2.1.totalEventsPushed = st.totalEventsPushed ∧
    st.totalEventsQueued ≤
      (add_events_batch_aux st evs block i).2.1.totalEventsQueued := by
  induction evs with
  | nil => intro st block i; simp [add_events_batch_aux]
  | cons ev rest ih =>
    intro st block i
    have h1 := add_event_counters st ev block
    rcases hfirst : add_event st ev block with ⟨ok1, st1⟩
    rw [hfirst] at h1
    simp only at h1
    have h2 := add_event_counters st1 ev true
    rcases hretry : add_event st1 ev true with ⟨ok2, st2⟩
    rw [hretry] at h2
    simp only at h2
    simp only [add_events_batch_aux, hfirst, hretry]
    cases ok1
    · cases ok2
      · simp
        omega
      · have ih2 := ih st2 block (i + 1)
        simp
        omega
    · have ih1 := ih st1 block (i + 1)
      simp
      omega

theorem task_done_once_counters (st : ManagerState) :
    (task_done_once st).totalEventsReceived = st.totalEventsReceived ∧
    (task_done_once st).totalEventsPushed = st.totalEventsPushed ∧
    (task_done_once st).totalEventsQueued ≤ st.totalEventsQueued ∧
    (0 ≤ st.totalEventsQueued → 0 ≤ (task_done_once st).totalEventsQueued) := by
  simp only [task_done_once]
  split
  · simp
  · split
    · simp
      omega
    · simp

theorem task_done_counters (n : Nat) : ∀ st : ManagerState,
    (task_done st n).totalEventsReceived = st.totalEventsReceived ∧
    (task_done st n).totalEventsPushed = st.totalEventsPushed ∧
    (task_done st n).totalEventsQueued ≤ st.totalEventsQueued ∧
    (0 ≤ st.totalEventsQueued → 0 ≤ (task_done st n).totalEventsQueued) := by
  induction n with
  | zero => intro st; simp [task_done]
  | succ n ih =>
    intro st
    have h1 := task_done_once_counters st
    have h2 := ih (task_done_once st)
    simp only [task_done]
    exact ⟨by omega, by omega, by omega, fun h => h2.2.2.2 (h1.2.2.2 h)⟩

theorem get_event_counters (st : ManagerState) :
    (get_event st).2.totalEventsReceived = st.totalEventsReceived ∧
    (get_event st).2.totalEventsPushed = st.totalEventsPushed ∧
    (get_event st).2.totalEventsQueued = st.totalEventsQueued := by
  unfold get_event
  split <;> simp

theorem get_events_batch_counters (st : ManagerState) (batchSize : Nat) :
    (get_events_batch st batchSize).2.totalEventsReceived = st.totalEventsReceived ∧
    (get_events_batch st batchSize).2.totalEventsPushed = st.totalEventsPushed ∧
    (get_events_batch st batchSize).2.totalEventsQueued = st.totalEventsQueued := by
  cases hst : st.events with
  | nil =>
    have hg : get_event st = (none, st) := by unfold get_event; rw [hst]
    simp [get_events_batch, hg]
  | cons e rest =>
    have hg : get_event st = (some e, { st with events := rest }) := by
      unfold get_event; rw [hst]
    have hd := drainNowait_spec (batchSize - 1) { st with events := rest }
    simp only at hd
    simp [get_events_batch, hg, hd.2.2.2.2.2.2.1, hd.2.2.2.2.2.2.2.1,
      hd.2.2.2.2.2.2.2.2.1]

theorem push_event_counters (st : ManagerState) (ev : Event) :
    (push_event st ev).state.totalEventsReceived = st.totalEventsReceived + 1 ∧
    (push_event st ev).state.totalEventsPushed = st.totalEventsPushed + 1 ∧
    (push_event st ev).state.totalEventsQueued = st.totalEventsQueued := by
  simp [push_event]

theorem push_events_batch_counters (st : ManagerState) (evs : List Event) :
    st.totalEventsReceived ≤ (push_events_batch st evs).state.totalEventsReceived ∧
    st.totalEventsPushed ≤ (push_events_batch st evs).state.totalEventsPushed ∧
    (push_events_batch st evs).state.totalEventsQueued = st.totalEventsQueued := by
  unfold push_events_batch
  split
  · simp
  · simp

theorem applyOp_received_mono (st : ManagerState) (op : ManagerOp) :
    st.totalEventsReceived ≤ (applyOp st op).totalEventsReceived := by
  cases op with
  | addEvent ev block => exact (add_event_counters st ev block).1
  | addEventsBatch evs block => exact (add_events_batch_aux_counters evs st block 0).1
  | getEvent => exact le_of_eq (get_event_counters st).1.symm
  | getEventsBatch b => exact le_of_eq (get_events_batch_counters st b).1.symm
  | taskDone n => exact le_of_eq (task_done_counters n st).1.symm
  | pushEvent ev =>
    show st.totalEventsReceived ≤ (push_event st ev).state.totalEventsReceived
    rw [(push_event_counters st ev).1]
    omega
  | pushEventsBatch evs => exact (push_events_batch_counters st evs).1

theorem applyOp_pushed_mono (st : ManagerState) (op : ManagerOp) :
    st.totalEventsPushed ≤ (applyOp st op).totalEventsPushed := by
  cases op with
  | addEvent ev block => exact le_of_eq (add_event_counters st ev block).2.1.symm
  | addEventsBatch evs block =>
    exact le_of_eq (add_events_batch_aux_counters evs st block 0).2.1.symm
  | getEvent => exact le_of_eq (get_event_counters st).2.1.symm
  | getEventsBatch b => exact le_of_eq (get_events_batch_counters st b).2.1.symm
  | taskDone n => exact le_of_eq (task_done_counters n st).2.1.symm
  | pushEvent ev =>
    show st.totalEventsPushed ≤ (push_event st ev).state.totalEventsPushed
    rw [(push_event_counters st ev).2.1]
    omega
  | pushEventsBatch evs => exact (push_events_batch_counters st evs).2.1

theorem applyOp_queued_mono (st : ManagerState) (op : ManagerOp)
    (h : ∀ n, op ≠ ManagerOp.taskDone n) :
    st.totalEventsQueued ≤ (applyOp st op).totalEventsQueued := by
  cases op with
  | addEvent ev block => exact (add_event_counters st ev block).2.2
  | addEventsBatch evs block => exact (add_events_batch_aux_counters evs st block 0).2.2
  | getEvent => exact le_of_eq (get_event_counters st).2.2.symm
  | getEventsBatch b => exact le_of_eq (get_events_batch_counters st b).2.2.symm
  | taskDone n => exact absurd rfl (h n)
  | pushEvent ev => exact le_of_eq (push_event_counters st ev).2.2.symm
  | pushEventsBatch evs => exact le_of_eq (push_events_batch_counters st evs).2.2.symm

theorem applyOp_queued_nonneg (st : ManagerState) (op : ManagerOp)
    (h : 0 ≤ st.totalEventsQueued) : 0 ≤ (applyOp st op).totalEventsQueued := by
  cases op with
  | taskDone n => exact (task_done_counters n st).2.2.2 h
  | addEvent ev block => exact le_trans h (add_event_counters st ev block).2.2
  | addEventsBatch evs block =>
    exact le_trans h (add_events_batch_aux_counters evs st block 0).2.2
  | getEvent => exact le_trans h (le_of_eq (get_event_counters st).2.2.symm)
  | getEventsBatch b => exact le_trans h (le_of_eq (get_events_batch_counters st b).2.2.symm)
  | pushEvent ev => exact le_trans h (le_of_eq (push_event_counters st ev).2.2.symm)
  | pushEventsBatch evs =>
    exact le_trans h (le_of_eq (push_events_batch_counters st evs).2.2.symm)

theorem on_event_received_processed_mono (cst : PushConsumerState) (ev : Event) :
    cst.eventsProcessed ≤ (on_event_received cst ev).eventsProcessed := by
  simp only [on_event_received, process_batch]
  split
  · simp
    omega
  · simp

theorem finish_processed_mono (cst : PushConsumerState) :
    cst.eventsProcessed ≤ (finish cst).eventsProcessed := by
  simp only [finish, process_batch]
  split
  · simp
  · simp

theorem send_batch_produced_mono (mst : ManagerState) (pst : ProducerState)
    (batch : List Event) (pushMode : Bool) :
    pst.eventsProduced ≤ (send_batch mst pst batch pushMode).2.eventsProduced := by
  simp [send_batch]

/-- C7 (amended): the received and pushed counters of the dispatcher, the
processed counter of the PushConsumer and the produced counter of the
Producer are monotonically non-decreasing under every modelled public
operation; the dispatcher's queued counter is non-decreasing under every
public operation except `task_done`, which decrements it — but, because the
decrement is guarded by a strict-positivity check, never below zero.  Reads
(`get_total_*`) return the lock-protected snapshot value of the counter. -/
theorem counters_monotonic_except_task_done (st : ManagerState) (op : ManagerOp) :
    st.totalEventsReceived ≤ (applyOp st op).totalEventsReceived ∧
    st.totalEventsPushed ≤ (applyOp st op).totalEventsPushed ∧
    ((∀ n, op ≠ ManagerOp.taskDone n) →
      st.totalEventsQueued ≤ (applyOp st op).totalEventsQueued) ∧
    (0 ≤ st.totalEventsQueued → 0 ≤ (applyOp st op).totalEventsQueued) ∧
    (∀ (cst : PushConsumerState) (ev : Event),
      cst.eventsProcessed ≤ (on_event_received cst ev).eventsProcessed ∧
      cst.eventsProcessed ≤ (finish cst).eventsProcessed) ∧
    (∀ (pst : ProducerState) (batch : List Event) (pushMode : Bool),
      pst.eventsProduced ≤ (send_batch st pst batch pushMode).2.eventsProduced) :=
  ⟨applyOp_received_mono st op, applyOp_pushed_mono st op,
   applyOp_queued_mono st op, applyOp_queued_nonneg st op,
   fun cst ev => ⟨on_event_received_processed_mono cst ev, finish_processed_mono cst⟩,
   fun pst batch pushMode => send_batch_produced_mono st pst batch pushMode⟩

/-- C7 witness: a fresh manager and a single-event push operation. -/
theorem counters_monotonic_except_task_done_witness :
    (initManager 0 []).totalEventsReceived ≤
      (applyOp (initManager 0 []) (ManagerOp.pushEvent (mkEvent 0 "A"))).totalEventsReceived ∧
    (initManager 0 []).totalEventsPushed ≤
      (applyOp (initManager 0 []) (ManagerOp.pushEvent (mkEvent 0 "A"))).totalEventsPushed ∧
    ((∀ n, ManagerOp.pushEvent (mkEvent 0 "A") ≠ ManagerOp.taskDone n) →
      (initManager 0 []).totalEventsQueued ≤
        (applyOp (initManager 0 []) (ManagerOp.pushEvent (mkEvent 0 "A"))).totalEventsQueued) ∧
    (0 ≤ (initManager 0 []).totalEventsQueued →
      0 ≤ (applyOp (initManager 0 []) (ManagerOp.pushEvent (mkEvent 0 "A"))).totalEventsQueued) ∧
    (∀ (cst : PushConsumerState) (ev : Event),
      cst.eventsProcessed ≤ (on_event_received cst ev).eventsProcessed ∧
      cst.eventsProcessed ≤ (finish cst).eventsProcessed) ∧
    (∀ (pst : ProducerState) (batch : List Event) (pushMode : Bool),
      pst.eventsProduced ≤
        (send_batch (initManager 0 []) pst batch pushMode).2.eventsProduced) :=
  counters_monotonic_except_task_done (initManager 0 [])
    (ManagerOp.pushEvent (mkEvent 0 "A"))

/-- C7 counterexample: `task_done` is a public operation that decreases the
queued counter — after one `add_event` the snapshot is 1, and one
`task_done` brings it back to 0, so the counters are not all monotonically
non-decreasing. -/
theorem task_done_decreases_queued_cex :
    get_total_queued
        (applyOp (applyOp (initManager 0 []) (ManagerOp.addEvent (mkEvent 0 "A") false))
          (ManagerOp.taskDone 1)) <
      get_total_queued
        (applyOp (initManager 0 []) (ManagerOp.addEvent (mkEvent 0 "A") false)) := by
  decide

/-- C10: starting from a fresh manager, after any sequence of public
operations (including arbitrary interleavings of `add_event`, `get_event`
and `task_done`) the queued-counter snapshot `get_total_queued` is never
negative: the only decrementing operation, `task_done`, first checks that
the counter is strictly positive. -/
theorem queued_counter_never_negative (maxQueueSize : Nat) (oracle : List Bool)
    (ops : List ManagerOp) :
    0 ≤ get_total_queued (List.foldl applyOp (initManager maxQueueSize oracle) ops) := by
  have hgen : ∀ (l : List ManagerOp) (st : ManagerState),
      0 ≤ st.totalEventsQueued → 0 ≤ (List.foldl applyOp st l).totalEventsQueued := by
    intro l
    induction l with
    | nil => intro st h; simpa using h
    | cons op rest ih =>
      intro st h
      rw [List.foldl_cons]
      exact ih (applyOp st op) (applyOp_queued_nonneg st op h)
  exact hgen ops (initManager maxQueueSize oracle) (by simp [initManager])

/-!  ## Batch enqueue retry semantics (C6)  -/

theorem callsFor_cons_self (c : EnqueueCall) (tr : List EnqueueCall) (j : Nat)
    (h : c.idx = j) : callsFor (c :: tr) j = c :: callsFor tr j := by
  simp [callsFor, List.filter_cons, h]

theorem callsFor_cons_ne (c : EnqueueCall) (tr : List EnqueueCall) (j : Nat)
    (h : c.idx ≠ j) : callsFor (c :: tr) j = callsFor tr j := by
  simp [callsFor, List.filter_cons, h]

theorem callsFor_eq_nil (tr : List EnqueueCall) (j : Nat)
    (h : ∀ c ∈ tr, c.idx ≠ j) : callsFor tr j = [] := by
  unfold callsFor
  rw [List.filter_eq_nil_iff]
  intro c hc
  simpa using h c hc

theorem add_events_batch_aux_idx_range (evs : List Event) :
    ∀ (st : ManagerState) (block : Bool) (i : Nat),
    ∀ c ∈ (add_events_batch_aux st evs block i).2.2,
      i ≤ c.idx ∧ c.idx < i + evs.length := by
  induction evs with
  | nil => intro st block i c hc; simp [add_events_batch_aux] at hc
  | cons ev rest ih =>
    intro st block i c hc
    rcases hfirst : add_event st ev block with ⟨ok1, st1⟩
    rcases hretry : add_event st1 ev true with ⟨ok2, st2⟩
    simp only [add_events_batch_aux, hfirst, hretry] at hc
    cases ok1
    · cases ok2
      · simp only [Bool.false_eq_true, if_false, List.mem_cons, List.mem_singleton,
          List.not_mem_nil] at hc
        rcases hc with hc | hc | hc
        · subst hc; simp
        · subst hc; simp
        · cases hc
      · simp only [Bool.false_eq_true, if_false, if_true, List.mem_cons] at hc
        rcases hc with hc | hc | hc
        · subst hc; simp
        · subst hc; simp
        · have := ih st2 block (i + 1) c hc
          simp only [List.length_cons]
          omega
    · simp only [if_true, List.mem_cons] at hc
      rcases hc with hc | hc
      · subst hc; simp
      · have := ih st1 block (i + 1) c hc
        simp only [List.length_cons]
        omega

theorem add_events_batch_aux_spec (evs : List Event) :
    ∀ (st : ManagerState) (block : Bool) (i : Nat),
    ((add_events_batch_aux st evs block i).1 = true →
      ∀ j, i ≤ j → j < i + evs.length →
        callsFor (add_events_batch_aux st evs block i).2.2 j = [⟨j, block, true⟩] ∨
        callsFor (add_events_batch_aux st evs block i).2.2 j =
          [⟨j, block, false⟩, ⟨j, true, true⟩]) ∧
    ((add_events_batch_aux st evs block i).1 = false →
      ∃ j, i ≤ j ∧ j < i + evs.length ∧
        callsFor (add_events_batch_aux st evs block i).2.2 j =
          [⟨j, block, false⟩, ⟨j, true, false⟩] ∧
        (∀ m, j < m → callsFor (add_events_batch_aux st evs block i).2.2 m = []) ∧
        (∀ m, i ≤ m → m < j →
          callsFor (add_events_batch_aux st evs block i).2.2 m = [⟨m, block, true⟩] ∨
          callsFor (add_events_batch_aux st evs block i).2.2 m =
            [⟨m, block, false⟩, ⟨m, true, true⟩])) := by
  induction evs with
  | nil =>
    intro st block i
    constructor
    · intro _ j hj1 hj2
      simp only [List.length_nil] at hj2
      omega
    · intro hfail
      simp [add_events_batch_aux] at hfail
  | cons ev rest ih =>
    intro st block i
    rcases hfirst : add_event st ev block with ⟨ok1, st1⟩
    rcases hretry : add_event st1 ev true with ⟨ok2, st2⟩
    cases ok1
    · cases ok2
      · -- first call and blocking retry both fail: the failure surfaces at
        -- batch position i and nothing later is attempted
        simp only [add_events_batch_aux, hfirst, hretry, Bool.false_eq_true, if_false]
        constructor
        · intro hok; cases hok
        · intro _
          refine ⟨i, le_refl i, by simp, ?_, ?_, ?_⟩
          · rw [callsFor_cons_self _ _ _ rfl, callsFor_cons_self _ _ _ rfl,
              callsFor_eq_nil [] i (by intro c hc; cases hc)]
          · intro m hm
            refine callsFor_eq_nil _ m ?_
            intro c hc
            simp only [List.mem_cons, List.mem_singleton, List.not_mem_nil] at hc
            rcases hc with hc | hc | hc
            · subst hc; simp; omega
            · subst hc; simp; omega
            · cases hc
          · intro m _ hm
            omega
      · -- first call fails, blocking retry succeeds: the batch continues
        have ihs := ih st2 block (i + 1)
        have hrange := add_events_batch_aux_idx_range rest st2 block (i + 1)
        simp only [add_events_batch_aux, hfirst, hretry, Bool.false_eq_true, if_false,
          if_true] at ihs hrange ⊢
        constructor
        · intro hok j hj1 hj2
          by_cases hji : i = j
          · subst hji
            rw [callsFor_cons_self _ _ _ rfl, callsFor_cons_self _ _ _ rfl,
              callsFor_eq_nil _ i (fun c hc => by have := hrange c hc; omega)]
            exact Or.inr rfl
          · rw [callsFor_cons_ne _ _ _ (by simpa using hji),
              callsFor_cons_ne _ _ _ (by simpa using hji)]
            refine ihs.1 hok j (by omega) ?_
            simp only [List.length_cons] at hj2
            omega
        · intro hfail
          obtain ⟨j, hj1, hj2, hjc, hafter, hbefore⟩ := ihs.2 hfail
          refine ⟨j, by omega, by simp; omega, ?_, ?_, ?_⟩
          · rw [callsFor_cons_ne _ _ _ (by simp; omega),
              callsFor_cons_ne _ _ _ (by simp; omega)]
            exact hjc
          · intro m hm
            rw [callsFor_cons_ne _ _ _ (by simp; omega),
              callsFor_cons_ne _ _ _ (by simp; omega)]
            exact hafter m hm
          · intro m hm1 hm2
            by_cases hmi : i = m
            · subst hmi
              rw [callsFor_cons_self _ _ _ rfl, callsFor_cons_self _ _ _ rfl,
                callsFor_eq_nil _ i (fun c hc => by have := hrange c hc; omega)]
              exact Or.inr rfl
            · rw [callsFor_cons_ne _ _ _ (by simpa using hmi),
                callsFor_cons_ne _ _ _ (by simpa using hmi)]
              exact hbefore m (by omega) hm2
    · -- first call succeeds
      have ihs := ih st1 block (i + 1)
      have hrange := add_events_batch_aux_idx_range rest st1 block (i + 1)
      simp only [add_events_batch_aux, hfirst, if_true] at ihs hrange ⊢
      constructor
      · intro hok j hj1 hj2
        by_cases hji : i = j
        · subst hji
          rw [callsFor_cons_self _ _ _ rfl,
            callsFor_eq_nil _ i (fun c hc => by have := hrange c hc; omega)]
          exact Or.inl rfl
        · rw [callsFor_cons_ne _ _ _ (by simpa using hji)]
          refine ihs.1 hok j (by omega) ?_
          simp only [List.length_cons] at hj2
          omega
      · intro hfail
        obtain ⟨j, hj1, hj2, hjc, hafter, hbefore⟩ := ihs.2 hfail
        refine ⟨j, by omega, by simp; omega, ?_, ?_, ?_⟩
        · rw [callsFor_cons_ne _ _ _ (by simp; omega)]
          exact hjc
        · intro m hm
          rw [callsFor_cons_ne _ _ _ (by simp; omega)]
          exact hafter m hm
        · intro m hm1 hm2
          by_cases hmi : i = m
          · subst hmi
            rw [callsFor_cons_self _ _ _ rfl,
              callsFor_eq_nil _ i (fun c hc => by have := hrange c hc; omega)]
            exact Or.inl rfl
          · rw [callsFor_cons_ne _ _ _ (by simpa using hmi)]
            exact hbefore m (by omega) hm2

/-- C6 (amended): `add_events_batch` calls `add_event` once per event while
enqueues succeed; an enqueue failure on an event triggers exactly one
retry of that event with blocking semantics, and if the retry succeeds the
remaining events of the batch are still delivered; if the blocking retry
also fails, the failure is surfaced to the caller and the remaining events
of the batch are NOT attempted. -/
theorem add_events_batch_retry_semantics (st : ManagerState) (evs : List Event)
    (block : Bool) :
    ((add_events_batch st evs block).1 = true →
      ∀ j, j < evs.length →
        callsFor (add_events_batch st evs block).2.2 j = [⟨j, block, true⟩] ∨
        callsFor (add_events_batch st evs block).2.2 j =
          [⟨j, block, false⟩, ⟨j, true, true⟩]) ∧
    ((add_events_batch st evs block).1 = false →
      ∃ j, j < evs.length ∧
        callsFor (add_events_batch st evs block).2.2 j =
          [⟨j, block, false⟩, ⟨j, true, false⟩] ∧
        (∀ m, j < m → callsFor (add_events_batch st evs block).2.2 m = []) ∧
        (∀ m, m < j →
          callsFor (add_events_batch st evs block).2.2 m = [⟨m, block, true⟩] ∨
          callsFor (add_events_batch st evs block).2.2 m =
            [⟨m, block, false⟩, ⟨m, true, true⟩])) := by
  have hspec := add_events_batch_aux_spec evs st block 0
  unfold add_events_batch
  constructor
  · intro hok j hj
    exact hspec.1 hok j (Nat.zero_le j) (by omega)
  · intro hfail
    obtain ⟨j, _, hj2, hjc, hafter, hbefore⟩ := hspec.2 hfail
    exact ⟨j, by omega, hjc, hafter, fun m hm => hbefore m (Nat.zero_le m) hm⟩

/-- C6 witness: an unbounded queue, where every enqueue of a two-event batch
succeeds with a single call per event. -/
theorem add_events_batch_retry_semantics_witness :
    ((add_events_batch (initManager 0 []) [mkEvent 0 "A", mkEvent 1 "B"] false).1 = true →
      ∀ j, j < ([mkEvent 0 "A", mkEvent 1 "B"] : List Event).length →
        callsFor (add_events_batch (initManager 0 [])
            [mkEvent 0 "A", mkEvent 1 "B"] false).2.2 j = [⟨j, false, true⟩] ∨
        callsFor (add_events_batch (initManager 0 [])
            [mkEvent 0 "A", mkEvent 1 "B"] false).2.2 j =
          [⟨j, false, false⟩, ⟨j, true, true⟩]) ∧
    ((add_events_batch (initManager 0 []) [mkEvent 0 "A", mkEvent 1 "B"] false).1 = true) :=
  ⟨(add_events_batch_retry_semantics (initManager 0 [])
      [mkEvent 0 "A", mkEvent 1 "B"] false).1, rfl⟩

/-- C6 counterexample: with a capacity-1 queue and no consumer freeing
slots, the second event's enqueue and its blocking retry both fail, the
exception propagates, and the third event of the batch is never attempted
and never enqueued — the failure does abort delivery of the remaining
events. -/
theorem add_events_batch_abort_cex :
    (add_events_batch (initManager 1 [])
        [mkEvent 0 "A", mkEvent 1 "B", mkEvent 2 "C"] false).1 = false ∧
    callsFor (add_events_batch (initManager 1 [])
        [mkEvent 0 "A", mkEvent 1 "B", mkEvent 2 "C"] false).2.2 2 = [] ∧
    mkEvent 2 "C" ∉ (add_events_batch (initManager 1 [])
        [mkEvent 0 "A", mkEvent 1 "B", mkEvent 2 "C"] false).2.1.events := by
  refine ⟨rfl, rfl, ?_⟩
  decide

end Banking
